import Mathlib

/-!
Verification of the MCP tool-orchestration repository.

The development embeds, in Lean, the parts of the source that the claims
are about:

* `src/local_servers/demo_server.py` — tool registration on a FastMCP
  server instance (decorated defs versus a bare `mcp.tool()` expression).
* `src/local_servers/file_system.py` — the `write_file` tool whose body
  calls `f.write()` with no argument.
* `src/mcp_servers/shell_mcp_server.py` — the `shell` tool and its
  dangerous-pattern screen.
* `src/mcp_clients/mcp_client_with_langgraph.py` — the conversation
  control loop: `ChatState` with the `add_messages` reducer, `chat_node`,
  the `ToolNode`/`tools_condition` wiring of `build_graph`, and `main`.

Python machine-level details are modelled explicitly: a text file system
is a map from path to optional content, a raised Python exception is a
value of an exception result type, and the LLM / tool bodies are oracle
functions supplied as parameters.
-/

namespace MCP

/-! ## Tool registration semantics (FastMCP decorators)

`src/local_servers/demo_server.py` registers tools through the
`@mcp.tool()` decorator.  A module-level statement either applies the
decorator to a function definition (registering the function's name), or
evaluates a bare `mcp.tool()` expression whose returned decorator is
discarded, leaving the following plain `def` unregistered. -/

/-- One module-level statement of a FastMCP server script, as far as tool
registration is concerned. -/
inductive RegStmt where
  /-- `@mcp.tool()` directly above `def name(...)`: registers `name`. -/
  | decoratedDef (name : String)
  /-- a bare `mcp.tool()` expression on its own line: the decorator it
  returns is discarded. -/
  | bareToolCall
  /-- a plain `def name(...)` with no decorator attached. -/
  | plainDef (name : String)
deriving DecidableEq, Repr

/-- The set of tool names a script's statements register, in order. -/
def registeredTools : List RegStmt → List String
  | [] => []
  | .decoratedDef n :: rest => n :: registeredTools rest
  | .bareToolCall :: rest => registeredTools rest
  | .plainDef _ :: rest => registeredTools rest

/-- The statements of `src/local_servers/demo_server.py`: three decorated
defs, then the bare `mcp.tool()` expression on its own line, then the
plain `def div_numbers`. -/
def demoServerStmts : List RegStmt :=
  [ .decoratedDef "add_numbers"
  , .decoratedDef "sub_numbers"
  , .decoratedDef "mul_numbers"
  , .bareToolCall
  , .plainDef "div_numbers" ]

/-- Resolving an invocation request on a server: the name must be among
the registered tools. -/
def resolvesOn (stmts : List RegStmt) (name : String) : Bool :=
  (registeredTools stmts).contains name

/-- The arithmetic bodies of the demo server, for reference:
`add_numbers`, `sub_numbers`, `mul_numbers` on Python ints, and the
unregistered `div_numbers` which uses Python floor division `//`. -/
def add_numbers (num_1 num_2 : Int) : Int := num_1 + num_2

def sub_numbers (num_1 num_2 : Int) : Int := num_1 - num_2

def mul_numbers (num_1 num_2 : Int) : Int := num_1 * num_2

def div_numbers (num_1 num_2 : Int) : Int := Int.fdiv num_1 num_2

/-! ## The shell tool's dangerous-pattern screen

`src/mcp_servers/shell_mcp_server.py`, function `shell`: a list of seven
dangerous substrings is checked against `command.lower()`; on the first
match the function returns a `Security Error:` string before the
`subprocess.Popen` call is ever reached. -/

/-- `a` is a prefix of `b`, on character lists. -/
def charPre : List Char → List Char → Bool
  | [], _ => true
  | _ :: _, [] => false
  | a :: as, b :: bs => a == b && charPre as bs

/-- `needle` occurs as a contiguous substring of `hay` (Python's
`needle in hay` on strings), on character lists. -/
def charSub (needle : List Char) : List Char → Bool
  | [] => needle.isEmpty
  | h :: t => charPre needle (h :: t) || charSub needle t

/-- Python's `d in s` substring test for strings. -/
def pyIn (d s : String) : Bool := charSub d.data s.data

/-- Python's `s.lower()`: lowercase each character. -/
def pyLower (s : String) : String := ⟨s.data.map Char.toLower⟩

/-- The `dangerous` list of `shell`, verbatim from the source. -/
def dangerous : List String :=
  [ "rm -rf /", "rm -rf /*", "dd if=", "mkfs"
  , ":()\x7b :|:& \x7d;:", "chmod 777 /", "> /dev/sd" ]

/-- First dangerous pattern contained in `command.lower()`, if any —
the loop `for d in dangerous: if d in command.lower(): ...`. -/
def firstDangerous (command : String) : Option String :=
  dangerous.find? (fun d => pyIn d (pyLower command))

/-- Result of one `shell` call: the returned string plus whether a
subprocess was spawned on the way. -/
structure ShellOutcome where
  output : String
  spawned : Bool
deriving DecidableEq, Repr

/-- The `shell` tool.  The subprocess branch is abstracted by an oracle
`runProc` giving the text the spawned-subprocess branch would return;
the screen happens before it and returns without spawning. -/
def shell (runProc : String → String) (command : String) : ShellOutcome :=
  match firstDangerous command with
  | some d =>
      { output := "Security Error: Command blocked - contains dangerous pattern: " ++ d
      , spawned := false }
  | none => { output := runProc command, spawned := true }

/-! ## The File System server's `write_file` tool

`src/local_servers/file_system.py`, function `write_file`: it opens the
file in the given mode (default `'w'`), then calls `f.write()` — with no
argument.  Python's `TextIOWrapper.write` requires one positional
argument, so this raises `TypeError`, and the success return
`f"Successfully wrote to {file_path}"` is unreachable.  Opening in mode
`'w'` truncates the file first, so the state change has already happened.

The file system is modelled as a map from path to optional content; a
raised Python exception is an `exn` value of `PyResult`. -/

/-- A text file system: each path maps to the file's content, if the
file exists. -/
def FS : Type := String → Option String

/-- Result of a Python call: a returned value, or a raised exception
with its class name and message. -/
inductive PyResult (α : Type) where
  | ok (val : α)
  | exn (kind : String) (msg : String)
deriving DecidableEq, Repr

/-- Overwrite one path's content. -/
def fsUpdate (fs : FS) (p c : String) : FS :=
  fun q => if q = p then some c else fs q

/-- `open(file_path, mode)` for text modes: `'w'` truncates (or creates)
the file, `'a'` creates it empty if absent and keeps it otherwise; any
other mode string raises `ValueError`.  Returns the file system as seen
once the file is open. -/
def pyOpen (fs : FS) (file_path mode : String) : PyResult FS :=
  if mode = "w" then .ok (fsUpdate fs file_path "")
  else if mode = "a" then
    .ok (match fs file_path with
         | some _ => fs
         | none => fsUpdate fs file_path "")
  else .exn "ValueError" ("invalid mode: " ++ mode)

/-- The `write_file` tool: open the file, then execute `f.write()` —
called with no argument, which raises `TypeError` before the success
message line is reached.  The returned pair is the call's result and the
file system afterwards.  The `content` argument is accepted but never
written. -/
def write_file (fs : FS) (file_path content : String) (mode : String) :
    PyResult String × FS :=
  match pyOpen fs file_path mode with
  | .exn k m => (.exn k m, fs)
  | .ok fsOpened =>
      (.exn "TypeError"
        "TextIOWrapper.write() missing 1 required positional argument", fsOpened)

/-! ## The tool catalog built by `build_graph`

`src/mcp_clients/mcp_client_with_langgraph.py`, lines 60–64:
`calc_tools = await client.get_tools()` flattens every connected
server's advertised tools into one list under their advertised names
(the adapter applies no renaming, and the source adds none), then
`tools = [search_tool]; tools.extend(calc_tools)` and
`llm.bind_tools(tools=tools)` presents that list to the reasoning step. -/

/-- One connected MCP server: its configured id and the tool names it
advertises. -/
structure MCPServer where
  serverId : String
  toolNames : List String
deriving DecidableEq, Repr

/-- `client.get_tools()`: the concatenation of every server's advertised
tool names, unchanged — no qualification by serverId. -/
def get_tools (servers : List MCPServer) : List String :=
  (servers.map MCPServer.toolNames).flatten

/-- The tool list bound to the LLM: the search tool followed by
`get_tools` of the connected servers. -/
def buildTools (searchToolName : String) (servers : List MCPServer) : List String :=
  searchToolName :: get_tools servers

/-- `src/local_servers/file_system.py`: the `File System` server's
advertised tools, in registration order. -/
def fileSystemServer : MCPServer :=
  { serverId := "File System"
  , toolNames :=
      [ "read_file", "write_file", "list_dir", "file_info", "search_files"
      , "create_directory", "delete_path", "get_current_directory"
      , "copy_file", "move_file", "file_stats", "find_large_files" ] }

/-- `src/mcp_servers/filesystem_mcp_server.py`: the `File system`
server's advertised tools, in registration order. -/
def filesystemMcpServer : MCPServer :=
  { serverId := "File system"
  , toolNames :=
      [ "file_read", "file_write", "list_dir", "file_info", "file_search"
      , "create_dir", "file_delete", "dir_delete", "file_copy", "file_move"
      , "current_path", "dir_stats", "find_large_file", "file_tail" ] }

/-! ## The conversation control loop

`src/mcp_clients/mcp_client_with_langgraph.py`:

* `ChatState` holds `messages : Annotated[list, add_messages]`; the
  `add_messages` reducer appends each incoming message, except that a
  message whose id matches an existing one replaces it in place.
* `chat_node` calls the LLM on the full history and contributes the
  response as one new message.
* `build_graph` wires `START → chat_node`, a conditional edge from
  `chat_node` by `tools_condition` (to the tool node iff the response
  carries tool calls, else to the end), and `tools → chat_node`.
* The tool node executes each requested call and contributes one tool
  message per request, in request order.

The LLM and the tool bodies are external collaborators, passed in as
oracle functions `reason` and `exec`. -/

/-- One tool-call request emitted by the reasoning step. -/
structure ToolCall where
  name : String
  args : String
deriving DecidableEq, Repr

/-- Payload of one conversation message: the human turn, an AI turn
(text plus requested tool calls), or one tool's result. -/
inductive MsgPayload where
  | human (content : String)
  | ai (content : String) (toolCalls : List ToolCall)
  | toolResult (toolName : String) (content : String)
deriving DecidableEq, Repr

/-- A message as stored in `ChatState.messages`: langchain messages
carry an id, which is what the `add_messages` reducer keys on. -/
structure Message where
  id : Nat
  payload : MsgPayload
deriving DecidableEq, Repr

/-- Fold one incoming message into the state: if an existing message has
the same id, replace it in place; otherwise append at the end. -/
def addOne (left : List Message) (m : Message) : List Message :=
  if left.any (fun x => x.id == m.id) then
    left.map (fun x => if x.id == m.id then m else x)
  else left ++ [m]

/-- The `add_messages` reducer of `ChatState.messages`: fold every
incoming message into the existing list. -/
def add_messages (left right : List Message) : List Message :=
  right.foldl addOne left

/-- Where the conditional edge after `chat_node` routes. -/
inductive Route where
  | tools
  | done
deriving DecidableEq, Repr

/-- `tools_condition`: route to the tool node iff the last message is an
AI message with a nonempty `tool_calls` list; otherwise end the run. -/
def tools_condition (messages : List Message) : Route :=
  match messages.getLast? with
  | some m =>
      match m.payload with
      | .ai _ tcs => if tcs.isEmpty then .done else .tools
      | _ => .done
  | none => .done

/-- The tool node's contribution for one batch: one `toolResult` message
per requested call, in request order, with consecutive fresh ids
starting at `base`. -/
def mkResults (exec : ToolCall → String) : List ToolCall → Nat → List Message
  | [], _ => []
  | tc :: rest, base =>
      ⟨base, .toolResult tc.name (exec tc)⟩ :: mkResults exec rest (base + 1)

/-- Control position of the compiled graph between super-steps. -/
inductive Phase where
  | reasoning
  | executing (pending : List ToolCall)
  | finished
deriving DecidableEq, Repr

/-- A state of the compiled graph: the conversation history, the next
fresh message id, and the control position. -/
structure Config where
  history : List Message
  nextId : Nat
  phase : Phase
deriving DecidableEq, Repr

/-- One super-step of the compiled graph.  In `reasoning`, run
`chat_node` (the oracle `reason` on the full history), fold its response
in via `add_messages`, and branch by `tools_condition`; in `executing`,
run the tool node and fold its messages in; `finished` is terminal. -/
def stepC (reason : List Message → String × List ToolCall)
    (exec : ToolCall → String) (c : Config) : Config :=
  match c.phase with
  | .reasoning =>
      let tcs := (reason c.history).2
      let h := add_messages c.history [⟨c.nextId, .ai (reason c.history).1 tcs⟩]
      match tools_condition h with
      | .tools => ⟨h, c.nextId + 1, .executing tcs⟩
      | .done => ⟨h, c.nextId + 1, .finished⟩
  | .executing tcs =>
      ⟨add_messages c.history (mkResults exec tcs c.nextId)
      , c.nextId + tcs.length, .reasoning⟩
  | .finished => c

/-- Well-formedness of a `Config`: every stored message id is below the
fresh-id counter.  Holds for the seeded state and is preserved by
`stepC`. -/
def idsBelow (c : Config) : Prop := ∀ m ∈ c.history, m.id < c.nextId

/-- Final outcome of a limit-guarded run. -/
inductive Outcome where
  | done (history : List Message) (cycles : Nat)
  | iterLimitExceeded (history : List Message) (cycles : Nat)
deriving DecidableEq, Repr

/-- Modelled from the spec: the caller-supplied maximum iteration count
on the conversation control loop.  The loop itself is the one
`build_graph` wires (`chat_node`, `tools_condition`, tool node, edge
back to `chat_node`); the source's `main` supplies no limit and no
`IterationLimitExceeded` guard exists in the source, so the guard is
taken from the spec: a `Reasoning→Executing` transition is allowed only
while `remaining` is positive, and one more requested transition fails
the run with `IterationLimitExceeded`.  `cyclesDone` counts completed
`Reasoning→Executing` cycles. -/
def runLimited (reason : List Message → String × List ToolCall)
    (exec : ToolCall → String) :
    (remaining : Nat) → (hist : List Message) → (nid cyclesDone : Nat) → Outcome
  | 0, hist, nid, cyclesDone =>
      match tools_condition
          (add_messages hist [⟨nid, .ai (reason hist).1 (reason hist).2⟩]) with
      | .done =>
          .done (add_messages hist [⟨nid, .ai (reason hist).1 (reason hist).2⟩])
            cyclesDone
      | .tools =>
          .iterLimitExceeded
            (add_messages hist [⟨nid, .ai (reason hist).1 (reason hist).2⟩])
            cyclesDone
  | r + 1, hist, nid, cyclesDone =>
      match tools_condition
          (add_messages hist [⟨nid, .ai (reason hist).1 (reason hist).2⟩]) with
      | .done =>
          .done (add_messages hist [⟨nid, .ai (reason hist).1 (reason hist).2⟩])
            cyclesDone
      | .tools =>
          runLimited reason exec r
            (add_messages
              (add_messages hist [⟨nid, .ai (reason hist).1 (reason hist).2⟩])
              (mkResults exec (reason hist).2 (nid + 1)))
            (nid + 1 + (reason hist).2.length) (cyclesDone + 1)

/-- What the user sees once `asyncio.run(main())` finishes: the printed
final answer, or a raw Python exception propagated out (`main`,
`build_graph` and `chat_node` contain no try/except).  Exhausting the
graph engine's recursion limit raises `GraphRecursionError`, also an
uncaught exception. -/
inductive RunResult where
  | answer (text : String)
  | uncaughtException (kind : String) (msg : String)
deriving DecidableEq, Repr

/-- The invoked graph with fallible reasoning: each turn calls the LLM
(`reason`, which may raise); a raised exception propagates out of
`chat_node` unhandled.  `fuel` is the graph engine's recursion limit;
running out raises `GraphRecursionError`. -/
def runE (reason : List Message → PyResult (String × List ToolCall))
    (exec : ToolCall → String) :
    (fuel : Nat) → (hist : List Message) → (nid : Nat) → RunResult
  | 0, _, _ => .uncaughtException "GraphRecursionError" "Recursion limit reached"
  | fuel + 1, hist, nid =>
      match reason hist with
      | .exn k m => .uncaughtException k m
      | .ok (txt, tcs) =>
          match tools_condition (add_messages hist [⟨nid, .ai txt tcs⟩]) with
          | .done => .answer txt
          | .tools =>
              runE reason exec fuel
                (add_messages (add_messages hist [⟨nid, .ai txt tcs⟩])
                  (mkResults exec tcs (nid + 1)))
                (nid + 1 + tcs.length)

/-- `main`: awaits `build_graph` — whose `await client.get_tools()` is
unguarded, so a worker-launch failure raises out of it — then invokes
the graph on the initial human message and prints the last message's
content.  No exception handler exists anywhere on this path. -/
def mainRun (getToolsResult : PyResult Unit)
    (reason : List Message → PyResult (String × List ToolCall))
    (exec : ToolCall → String) (fuel : Nat) (initial : String) : RunResult :=
  match getToolsResult with
  | .exn k m => .uncaughtException k m
  | .ok _ => runE reason exec fuel [⟨0, .human initial⟩] 1

/-- The output shapes the spec allows: a plain answer, a structured
failure, or an iteration-limit notice — an uncaught exception is none of
them. -/
def isGracefulOutput : RunResult → Bool
  | .answer _ => true
  | .uncaughtException _ _ => false

/-! ## The dispatch step with an explicit completion order

The tool node may run the batch's invocations concurrently; only the
completion order varies.  A completed invocation logs its request index
with its result message; the batch's output is read back in request
order, so the schedule `sched` (the order in which invocations complete)
is explicit and provably irrelevant. -/

/-- The result message for request `i` of the batch: determined by the
request itself, its position, and the id block starting at `base`. -/
def resultAt (exec : ToolCall → String) (reqs : List ToolCall) (base i : Nat) :
    Option Message :=
  (reqs.get? i).map (fun tc => ⟨base + i, .toolResult tc.name (exec tc)⟩)

/-- Look up the completion log entry for request index `i`. -/
def lookupIdx (log : List (Nat × Message)) (i : Nat) : Option Message :=
  (log.find? (fun e => e.1 == i)).map (fun e => e.2)

/-- Modelled from the spec (`Dispatcher.execute` — the source delegates
batch execution to the prebuilt tool node): invocations complete in the
order `sched`, each logging its request index and result; the output
slots are then read back in request index order. -/
def executeSched (exec : ToolCall → String) (reqs : List ToolCall)
    (base : Nat) (sched : List Nat) : List (Option Message) :=
  (List.range reqs.length).map
    (lookupIdx (sched.filterMap
      (fun i => (resultAt exec reqs base i).map (fun msg => (i, msg)))))

/-- The control loop with the per-cycle completion order made explicit:
`scheds c n` is the completion order of the `c`-th cycle's batch of `n`
invocations.  Returns the final history, or `none` when `fuel` runs
out. -/
def runSched (reason : List Message → String × List ToolCall)
    (exec : ToolCall → String) (scheds : Nat → Nat → List Nat) :
    (fuel : Nat) → (hist : List Message) → (nid cycle : Nat) →
      Option (List Message)
  | 0, _, _, _ => none
  | fuel + 1, hist, nid, cycle =>
      match tools_condition
          (add_messages hist [⟨nid, .ai (reason hist).1 (reason hist).2⟩]) with
      | .done =>
          some (add_messages hist [⟨nid, .ai (reason hist).1 (reason hist).2⟩])
      | .tools =>
          runSched reason exec scheds fuel
            (add_messages
              (add_messages hist [⟨nid, .ai (reason hist).1 (reason hist).2⟩])
              ((executeSched exec (reason hist).2 (nid + 1)
                  (scheds cycle (reason hist).2.length)).filterMap id))
            (nid + 1 + (reason hist).2.length) (cycle + 1)

end MCP

namespace MCP

/-! ## Helper lemmas -/

/-- A prefix of a list stays a prefix after appending on the right. -/
theorem charPre_append (n h t : List Char) (hp : charPre n h = true) :
    charPre n (h ++ t) = true := by
  induction n generalizing h with
  | nil => simp [charPre]
  | cons a as ih =>
      cases h with
      | nil => simp [charPre] at hp
      | cons b bs =>
          simp only [charPre, Bool.and_eq_true] at hp ⊢
          exact ⟨hp.1, ih bs hp.2⟩

/-- Concatenating server lists concatenates their advertised tools. -/
theorem get_tools_append (a b : List MCPServer) :
    get_tools (a ++ b) = get_tools a ++ get_tools b := by
  simp [get_tools]

/-- Folding in a message whose id is fresh appends it at the end. -/
theorem addOne_fresh (left : List Message) (m : Message)
    (h : ∀ x ∈ left, x.id ≠ m.id) : addOne left m = left ++ [m] := by
  have hany : left.any (fun x => x.id == m.id) = false := by
    rw [List.any_eq_false]
    intro x hx
    simpa using h x hx
  simp [addOne, hany]

/-- Folding in messages with fresh, pairwise-distinct ids appends them
all at the end, in order. -/
theorem add_messages_fresh (left new : List Message)
    (hfresh : ∀ m ∈ new, ∀ x ∈ left, x.id ≠ m.id)
    (hnodup : new.Pairwise (fun a b => a.id ≠ b.id)) :
    add_messages left new = left ++ new := by
  induction new generalizing left with
  | nil => simp [add_messages]
  | cons m rest ih =>
      have h1 : addOne left m = left ++ [m] :=
        addOne_fresh left m (fun x hx => hfresh m (by simp) x hx)
      have hpw := List.pairwise_cons.mp hnodup
      have h2 : add_messages (left ++ [m]) rest = (left ++ [m]) ++ rest := by
        refine ih (left ++ [m]) ?_ hpw.2
        intro m' hm' x hx
        rcases List.mem_append.mp hx with hxl | hxm
        · exact hfresh m' (by simp [hm']) x hxl
        · have hx1 : x = m := by simpa using hxm
          subst hx1
          exact hpw.1 m' hm'
      calc add_messages left (m :: rest)
          = add_messages (addOne left m) rest := rfl
        _ = add_messages (left ++ [m]) rest := by rw [h1]
        _ = (left ++ [m]) ++ rest := h2
        _ = left ++ m :: rest := by simp

/-- Folding in a single fresh message appends it. -/
theorem add_messages_fresh_one (left : List Message) (m : Message)
    (h : ∀ x ∈ left, x.id ≠ m.id) : add_messages left [m] = left ++ [m] :=
  add_messages_fresh left [m] (by intro m' hm' x hx; simp at hm'; subst hm'; exact h x hx)
    (by simp)

/-- Every id in a batch of tool results lies in the block
`[base, base + batch length)`. -/
theorem mkResults_id_range (exec : ToolCall → String) (tcs : List ToolCall) :
    ∀ base, ∀ m ∈ mkResults exec tcs base, base ≤ m.id ∧ m.id < base + tcs.length := by
  induction tcs with
  | nil => intro base m hm; simp [mkResults] at hm
  | cons tc rest ih =>
      intro base m hm
      rw [mkResults] at hm
      rcases List.mem_cons.mp hm with hm1 | hm2
      · subst hm1; simp
      · have := ih (base + 1) m hm2
        constructor <;> [omega; (simp only [List.length_cons]; omega)]

/-- Ids within one batch of tool results are pairwise distinct. -/
theorem mkResults_pairwise (exec : ToolCall → String) (tcs : List ToolCall) :
    ∀ base, (mkResults exec tcs base).Pairwise (fun a b => a.id ≠ b.id) := by
  induction tcs with
  | nil => intro base; simp [mkResults]
  | cons tc rest ih =>
      intro base
      rw [mkResults, List.pairwise_cons]
      refine ⟨?_, ih (base + 1)⟩
      intro m hm
      have := mkResults_id_range exec rest (base + 1) m hm
      simp only []
      omega

/-- The length of a batch of tool results is the batch size. -/
theorem mkResults_length (exec : ToolCall → String) (tcs : List ToolCall) :
    ∀ base, (mkResults exec tcs base).length = tcs.length := by
  induction tcs with
  | nil => intro base; simp [mkResults]
  | cons tc rest ih => intro base; simp [mkResults, ih (base + 1)]

/-- `tools_condition` after appending an AI message branches exactly on
whether its tool-call list is empty. -/
theorem tools_condition_snoc_ai (hist : List Message) (id : Nat)
    (txt : String) (tcs : List ToolCall) :
    tools_condition (hist ++ [⟨id, .ai txt tcs⟩])
      = if tcs.isEmpty then .done else .tools := by
  simp [tools_condition]

end MCP

namespace MCP

/-! ## Claim theorems -/

/-- C9: the demo calculator server registers exactly
`add_numbers`, `sub_numbers`, `mul_numbers`; `div_numbers` follows a bare
`mcp.tool()` expression, is never registered, and resolves to no tool. -/
theorem demo_server_three_tools :
    registeredTools demoServerStmts = ["add_numbers", "sub_numbers", "mul_numbers"] ∧
    resolvesOn demoServerStmts "div_numbers" = false := by
  decide

/-- C10: every command whose lowercased form contains one of the seven
dangerous substrings makes `shell` return a string beginning with
`Security Error:` and spawn no subprocess, whatever the subprocess branch
would have produced. -/
theorem shell_blocks_dangerous (runProc : String → String) (command : String)
    (h : ∃ d ∈ dangerous, pyIn d (pyLower command) = true) :
    charPre "Security Error:".data (shell runProc command).output.data = true ∧
    (shell runProc command).spawned = false := by
  obtain ⟨d, hd, hin⟩ := h
  have hfd : (firstDangerous command).isSome := by
    rw [firstDangerous, List.find?_isSome]
    exact ⟨d, hd, hin⟩
  obtain ⟨d', hd'⟩ := Option.isSome_iff_exists.mp hfd
  have hdata : ∀ e : String,
      ("Security Error: Command blocked - contains dangerous pattern: " ++ e).data
        = "Security Error: Command blocked - contains dangerous pattern: ".data ++ e.data :=
    fun _ => rfl
  constructor
  · simp only [shell, hd', hdata]
    exact charPre_append _ _ _ (by decide)
  · simp only [shell, hd']

/-- Witness for C10: the command `sudo rm -rf / --no-preserve-root`
contains the pattern `rm -rf /` and is blocked without spawning. -/
theorem shell_blocks_dangerous_witness :
    charPre "Security Error:".data
      (shell (fun _ => "ran") "sudo rm -rf / --no-preserve-root").output.data = true ∧
    (shell (fun _ => "ran") "sudo rm -rf / --no-preserve-root").spawned = false :=
  shell_blocks_dangerous (fun _ => "ran") "sudo rm -rf / --no-preserve-root"
    ⟨"rm -rf /", by decide, by decide⟩

/-- C8: whenever opening succeeds, `write_file` raises `TypeError`, so
the success message is never returned; and with mode `'w'` the target
file has already been truncated to empty when the error occurs. -/
theorem write_file_never_succeeds (fs : FS) (p c mode : String)
    (h : ∃ fsOpened, pyOpen fs p mode = .ok fsOpened) :
    (∃ m, (write_file fs p c mode).1 = .exn "TypeError" m) ∧
    (write_file fs p c mode).1 ≠ .ok ("Successfully wrote to " ++ p) ∧
    (mode = "w" → (write_file fs p c mode).2 p = some "") := by
  obtain ⟨fsOpened, hOpen⟩ := h
  have hw1 : (write_file fs p c mode).1
      = .exn "TypeError" "TextIOWrapper.write() missing 1 required positional argument" := by
    simp [write_file, hOpen]
  refine ⟨⟨_, hw1⟩, by rw [hw1]; simp, ?_⟩
  intro hw
  subst hw
  have hviz : pyOpen fs p "w" = .ok (fsUpdate fs p "") := by
    simp [pyOpen]
  simp [write_file, hviz, fsUpdate]

/-- Witness for C8: writing `"hello"` to an existing file `/tmp/x.txt`
holding `"old"`, in the default mode `'w'`. -/
theorem write_file_never_succeeds_witness :
    (∃ m, (write_file (fun _ => some "old") "/tmp/x.txt" "hello" "w").1
            = .exn "TypeError" m) ∧
    (write_file (fun _ => some "old") "/tmp/x.txt" "hello" "w").1
        ≠ .ok ("Successfully wrote to " ++ "/tmp/x.txt") ∧
    ("w" = "w" →
      (write_file (fun _ => some "old") "/tmp/x.txt" "hello" "w").2 "/tmp/x.txt"
        = some "") :=
  write_file_never_succeeds (fun _ => some "old") "/tmp/x.txt" "hello" "w"
    ⟨fsUpdate (fun _ => some "old") "/tmp/x.txt" "", by simp [pyOpen]⟩

/-- C6 counterexample: with the repository's two file-system servers
connected, both of which advertise `list_dir`, the catalog presented to
the reasoning step holds the name `list_dir` twice — the entries are not
under distinct serverId-qualified names. -/
theorem catalog_collision_counterexample :
    (buildTools "tavily_search" [fileSystemServer, filesystemMcpServer]).count "list_dir" = 2 ∧
    ¬ (buildTools "tavily_search" [fileSystemServer, filesystemMcpServer]).Nodup := by
  decide

/-- C6 amended: when two connected servers both advertise a tool name,
the catalog contains both entries under that same unqualified name (the
name occurs at least twice); nothing is dropped, but nothing is
qualified by serverId either. -/
theorem catalog_collision_both_present (search n : String)
    (pre mid post : List MCPServer) (s1 s2 : MCPServer)
    (h1 : n ∈ s1.toolNames) (h2 : n ∈ s2.toolNames) :
    2 ≤ (buildTools search (pre ++ s1 :: mid ++ s2 :: post)).count n := by
  have hsplit : get_tools (pre ++ s1 :: mid ++ s2 :: post)
      = get_tools pre ++ (s1.toolNames ++ (get_tools mid ++ (s2.toolNames ++ get_tools post))) := by
    simp [get_tools]
  have c1 : 1 ≤ s1.toolNames.count n := List.count_pos_iff.mpr h1
  have c2 : 1 ≤ s2.toolNames.count n := List.count_pos_iff.mpr h2
  simp only [buildTools, hsplit, List.count_cons, List.count_append]
  omega

/-- Witness for C6's amended claim: `list_dir` from both repository
file-system servers appears (at least) twice in the built catalog. -/
theorem catalog_collision_both_present_witness :
    2 ≤ (buildTools "tavily_search"
          ([] ++ fileSystemServer :: [] ++ filesystemMcpServer :: [])).count "list_dir" :=
  catalog_collision_both_present "tavily_search" "list_dir" [] [] []
    fileSystemServer filesystemMcpServer (by decide) (by decide)

end MCP

namespace MCP

/-! ## The control loop: append-only history and branch structure -/

/-- Characterization of a reasoning super-step when the new message id is
fresh: the response is appended and the branch follows the emptiness of
its tool-call list. -/
theorem stepC_reasoning (reason : List Message → String × List ToolCall)
    (exec : ToolCall → String) (hist : List Message) (nid : Nat)
    (h : ∀ x ∈ hist, x.id ≠ nid) :
    stepC reason exec ⟨hist, nid, .reasoning⟩ =
      ⟨hist ++ [⟨nid, .ai (reason hist).1 (reason hist).2⟩], nid + 1,
        if (reason hist).2.isEmpty then .finished
        else .executing (reason hist).2⟩ := by
  simp only [stepC]
  rw [add_messages_fresh_one _ _ h, tools_condition_snoc_ai]
  by_cases he : (reason hist).2.isEmpty <;> simp [he]

/-- Characterization of an executing super-step when all history ids are
below the fresh counter: the batch's results are appended in order. -/
theorem stepC_executing (reason : List Message → String × List ToolCall)
    (exec : ToolCall → String) (hist : List Message) (nid : Nat)
    (tcs : List ToolCall) (h : ∀ x ∈ hist, x.id < nid) :
    stepC reason exec ⟨hist, nid, .executing tcs⟩ =
      ⟨hist ++ mkResults exec tcs nid, nid + tcs.length, .reasoning⟩ := by
  simp only [stepC]
  rw [add_messages_fresh _ _ ?_ (mkResults_pairwise exec tcs nid)]
  intro m hm x hx
  have h1 := mkResults_id_range exec tcs nid m hm
  have h2 := h x hx
  omega

/-- C2: history is append-only.  In every well-formed state (all stored
ids below the fresh-id counter — true of the seeded state), one
super-step of the graph leaves the existing history as a prefix of the
new one: nothing is removed, replaced or reordered, and new messages
only appear at the end; well-formedness is preserved, so this holds
along every reachable state. -/
theorem history_append_only (reason : List Message → String × List ToolCall)
    (exec : ToolCall → String) (c : Config) (h : idsBelow c) :
    c.history <+: (stepC reason exec c).history ∧ idsBelow (stepC reason exec c) := by
  simp only [idsBelow] at h ⊢
  rcases c with ⟨hist, nid, phase⟩
  cases phase with
  | reasoning =>
      have hne : ∀ x ∈ hist, x.id ≠ nid := fun x hx => Nat.ne_of_lt (h x hx)
      rw [stepC_reasoning reason exec hist nid hne]
      refine ⟨List.prefix_append _ _, ?_⟩
      intro m hm
      rcases List.mem_append.mp hm with h1 | h2
      · exact Nat.lt_succ_of_lt (h m h1)
      · have hm2 : m = ⟨nid, .ai (reason hist).1 (reason hist).2⟩ := by simpa using h2
        subst hm2
        exact Nat.lt_succ_self nid
  | executing tcs =>
      rw [stepC_executing reason exec hist nid tcs h]
      refine ⟨List.prefix_append _ _, ?_⟩
      intro m hm
      rcases List.mem_append.mp hm with h1 | h2
      · exact Nat.lt_of_lt_of_le (h m h1) (Nat.le_add_right nid tcs.length)
      · exact (mkResults_id_range exec tcs nid m h2).2
  | finished =>
      exact ⟨List.prefix_refl _, h⟩

/-- Witness for C2: one step from the seeded state. -/
theorem history_append_only_witness :
    (Config.mk [⟨0, .human "hi"⟩] 1 .reasoning).history <+:
      (stepC (fun _ => ("", [⟨"search", "q"⟩])) (fun _ => "result")
        ⟨[⟨0, .human "hi"⟩], 1, .reasoning⟩).history ∧
    idsBelow (stepC (fun _ => ("", [⟨"search", "q"⟩])) (fun _ => "result")
        ⟨[⟨0, .human "hi"⟩], 1, .reasoning⟩) :=
  history_append_only (fun _ => ("", [⟨"search", "q"⟩])) (fun _ => "result")
    ⟨[⟨0, .human "hi"⟩], 1, .reasoning⟩
    (by intro m hm; simp at hm; subst hm; decide)

/-- C3: from the reasoning phase the loop moves to executing iff the
response carries at least one tool call, finishes iff it carries none
(the only success terminal), and the response's text never affects the
branch taken by `tools_condition`. -/
theorem branch_on_toolcalls (reason : List Message → String × List ToolCall)
    (exec : ToolCall → String) (hist : List Message) (nid : Nat)
    (h : ∀ x ∈ hist, x.id ≠ nid) :
    ((stepC reason exec ⟨hist, nid, .reasoning⟩).phase = .executing (reason hist).2
        ↔ (reason hist).2 ≠ []) ∧
    ((stepC reason exec ⟨hist, nid, .reasoning⟩).phase = .finished
        ↔ (reason hist).2 = []) ∧
    (∀ txt1 txt2 id tcs,
      tools_condition (hist ++ [⟨id, .ai txt1 tcs⟩])
        = tools_condition (hist ++ [⟨id, .ai txt2 tcs⟩])) := by
  rw [stepC_reasoning reason exec hist nid h]
  refine ⟨?_, ?_, ?_⟩
  · by_cases he : (reason hist).2.isEmpty
    · have he2 : (reason hist).2 = [] := List.isEmpty_iff.mp he
      simp [he, he2]
    · have he2 : (reason hist).2 ≠ [] := by
        intro hc
        rw [hc] at he
        simp at he
      simp [he, he2]
  · by_cases he : (reason hist).2.isEmpty
    · have he2 : (reason hist).2 = [] := List.isEmpty_iff.mp he
      simp [he, he2]
    · have he2 : (reason hist).2 ≠ [] := by
        intro hc
        rw [hc] at he
        simp at he
      simp [he, he2]
  · intro txt1 txt2 id tcs
    rw [tools_condition_snoc_ai, tools_condition_snoc_ai]

/-- Witness for C3: a response with one tool call routes to executing,
and the text-independence instance holds on the seeded history. -/
theorem branch_on_toolcalls_witness :
    ((stepC (fun _ => ("thinking", [⟨"search", "q"⟩])) (fun _ => "result")
        ⟨[⟨0, .human "hi"⟩], 1, .reasoning⟩).phase
      = .executing ((fun (_ : List Message) => ("thinking", [ToolCall.mk "search" "q"])) [⟨0, .human "hi"⟩]).2
        ↔ ((fun (_ : List Message) => ("thinking", [ToolCall.mk "search" "q"])) [⟨0, .human "hi"⟩]).2 ≠ []) ∧
    ((stepC (fun _ => ("thinking", [⟨"search", "q"⟩])) (fun _ => "result")
        ⟨[⟨0, .human "hi"⟩], 1, .reasoning⟩).phase
      = .finished
        ↔ ((fun (_ : List Message) => ("thinking", [ToolCall.mk "search" "q"])) [⟨0, .human "hi"⟩]).2 = []) ∧
    (∀ txt1 txt2 id tcs,
      tools_condition ([⟨0, .human "hi"⟩] ++ [⟨id, .ai txt1 tcs⟩])
        = tools_condition ([⟨0, .human "hi"⟩] ++ [⟨id, .ai txt2 tcs⟩])) :=
  branch_on_toolcalls (fun _ => ("thinking", [⟨"search", "q"⟩])) (fun _ => "result")
    [⟨0, .human "hi"⟩] 1
    (by intro m hm; simp at hm; subst hm; decide)

end MCP

namespace MCP

/-! ## The iteration limit -/

/-- With a reasoner that always requests tool calls and fresh ids, one
guarded run with `remaining` budget ends in `IterationLimitExceeded`
after exactly `remaining` further `Reasoning→Executing` cycles. -/
theorem runLimited_always_tools (reason : List Message → String × List ToolCall)
    (exec : ToolCall → String) (halways : ∀ h, (reason h).2 ≠ []) :
    ∀ (remaining : Nat) (hist : List Message) (nid cyclesDone : Nat),
      (∀ m ∈ hist, m.id < nid) →
      ∃ hFinal, runLimited reason exec remaining hist nid cyclesDone
          = .iterLimitExceeded hFinal (cyclesDone + remaining) := by
  intro remaining
  induction remaining with
  | zero =>
      intro hist nid cyclesDone hfresh
      have hne : ∀ x ∈ hist, x.id ≠ nid := fun x hx => Nat.ne_of_lt (hfresh x hx)
      have hnonempty : ((reason hist).2.isEmpty) = false := by
        cases hc : (reason hist).2 with
        | nil => exact absurd hc (halways hist)
        | cons a l => simp
      rw [runLimited, add_messages_fresh_one _ _ hne, tools_condition_snoc_ai,
        hnonempty]
      exact ⟨_, rfl⟩
  | succ r ih =>
      intro hist nid cyclesDone hfresh
      have hne : ∀ x ∈ hist, x.id ≠ nid := fun x hx => Nat.ne_of_lt (hfresh x hx)
      have hnonempty : ((reason hist).2.isEmpty) = false := by
        cases hc : (reason hist).2 with
        | nil => exact absurd hc (halways hist)
        | cons a l => simp
      rw [runLimited, add_messages_fresh_one _ _ hne, tools_condition_snoc_ai,
        hnonempty]
      simp only [Bool.false_eq_true, if_false]
      have hfresh2 : ∀ m ∈ (hist ++ [⟨nid, .ai (reason hist).1 (reason hist).2⟩])
            ++ mkResults exec (reason hist).2 (nid + 1),
          m.id < nid + 1 + (reason hist).2.length := by
        intro m hm
        rcases List.mem_append.mp hm with h1 | h2
        · rcases List.mem_append.mp h1 with h3 | h4
          · have := hfresh m h3
            omega
          · have hm4 : m = ⟨nid, .ai (reason hist).1 (reason hist).2⟩ := by simpa using h4
            subst hm4
            simp only []
            omega
        · have := mkResults_id_range exec (reason hist).2 (nid + 1) m h2
          omega
      have happend : add_messages (hist ++ [⟨nid, .ai (reason hist).1 (reason hist).2⟩])
            (mkResults exec (reason hist).2 (nid + 1))
          = (hist ++ [⟨nid, .ai (reason hist).1 (reason hist).2⟩])
            ++ mkResults exec (reason hist).2 (nid + 1) := by
        refine add_messages_fresh _ _ ?_ (mkResults_pairwise exec (reason hist).2 (nid + 1))
        intro m hm x hx
        have h1 := mkResults_id_range exec (reason hist).2 (nid + 1) m hm
        rcases List.mem_append.mp hx with h3 | h4
        · have := hfresh x h3
          omega
        · have hx4 : x = ⟨nid, .ai (reason hist).1 (reason hist).2⟩ := by simpa using h4
          subst hx4
          simp only []
          omega
      rw [happend]
      obtain ⟨hFinal, hrun⟩ := ih
        ((hist ++ [⟨nid, .ai (reason hist).1 (reason hist).2⟩])
          ++ mkResults exec (reason hist).2 (nid + 1))
        (nid + 1 + (reason hist).2.length) (cyclesDone + 1) hfresh2
      refine ⟨hFinal, ?_⟩
      rw [hrun]
      have : cyclesDone + 1 + r = cyclesDone + (r + 1) := by omega
      rw [this]

/-- C1: when the embedding application supplies a maximum iteration
count `k`, the control loop honors it: for every reasoner that always
requests another tool call, the run from the seeded state terminates
with `IterationLimitExceeded` after exactly `k` completed
`Reasoning→Executing` cycles — in particular not `k + 1`. -/
theorem iteration_limit_exact (reason : List Message → String × List ToolCall)
    (exec : ToolCall → String) (k : Nat) (hist : List Message) (nid : Nat)
    (halways : ∀ h, (reason h).2 ≠ [])
    (hfresh : ∀ m ∈ hist, m.id < nid) :
    ∃ hFinal, runLimited reason exec k hist nid 0
        = .iterLimitExceeded hFinal k := by
  obtain ⟨hFinal, hrun⟩ := runLimited_always_tools reason exec halways k hist nid 0 hfresh
  rw [Nat.zero_add] at hrun
  exact ⟨hFinal, hrun⟩

/-- Witness for C1: limit 2, a reasoner that always asks for one more
search — the run fails with the limit notice after exactly 2 cycles. -/
theorem iteration_limit_exact_witness :
    ∃ hFinal, runLimited (fun _ => ("", [⟨"search", "q"⟩])) (fun _ => "result") 2
        [⟨0, .human "go"⟩] 1 0 = .iterLimitExceeded hFinal 2 :=
  iteration_limit_exact (fun _ => ("", [⟨"search", "q"⟩])) (fun _ => "result") 2
    [⟨0, .human "go"⟩] 1
    (fun _ => by simp)
    (by intro m hm; simp at hm; subst hm; decide)

end MCP

namespace MCP

/-! ## Dispatch: order preservation under any completion order -/

/-- Position-indexed characterization of a batch's result messages. -/
theorem mkResults_get? (exec : ToolCall → String) (tcs : List ToolCall) :
    ∀ base i, (mkResults exec tcs base).get? i = resultAt exec tcs base i := by
  induction tcs with
  | nil => intro base i; simp [mkResults, resultAt]
  | cons tc rest ih =>
      intro base i
      cases i with
      | zero => simp [mkResults, resultAt]
      | succ j =>
          have harith : base + 1 + j = base + (j + 1) := by omega
          have := ih (base + 1) j
          rw [resultAt] at this ⊢
          simpa [mkResults, harith] using this

/-- Every entry of the completion log carries the result determined by
its request index. -/
theorem log_entry_shape (exec : ToolCall → String) (reqs : List ToolCall)
    (base : Nat) (sched : List Nat) :
    ∀ e ∈ sched.filterMap
        (fun i => (resultAt exec reqs base i).map (fun msg => (i, msg))),
      resultAt exec reqs base e.1 = some e.2 := by
  intro e he
  rcases List.mem_filterMap.mp he with ⟨j, _, hje⟩
  rcases Option.map_eq_some'.mp hje with ⟨msg, hmsg, hpair⟩
  subst hpair
  exact hmsg

/-- Reading the completion log back at an index that did complete gives
exactly that request's determined result, no matter where in the log it
landed. -/
theorem lookupIdx_log (exec : ToolCall → String) (reqs : List ToolCall)
    (base : Nat) (sched : List Nat) (i : Nat)
    (hi : i ∈ sched) (hlen : i < reqs.length) :
    lookupIdx (sched.filterMap
        (fun j => (resultAt exec reqs base j).map (fun msg => (j, msg)))) i
      = resultAt exec reqs base i := by
  have hsome : ∃ msg, resultAt exec reqs base i = some msg := by
    rw [resultAt]
    cases hg : reqs.get? i with
    | none =>
        have := List.get?_eq_none.mp hg
        omega
    | some tc => exact ⟨_, rfl⟩
  obtain ⟨msg, hmsg⟩ := hsome
  have hmem : (i, msg) ∈ sched.filterMap
      (fun j => (resultAt exec reqs base j).map (fun msg => (j, msg))) :=
    List.mem_filterMap.mpr ⟨i, hi, by rw [hmsg]; rfl⟩
  have hfs : (List.find? (fun e => e.1 == i) (sched.filterMap
      (fun j => (resultAt exec reqs base j).map (fun msg => (j, msg))))).isSome :=
    List.find?_isSome.mpr ⟨(i, msg), hmem, by simp⟩
  obtain ⟨e, he⟩ := Option.isSome_iff_exists.mp hfs
  have he1 : e.1 = i := by simpa using List.find?_some he
  have hshape := log_entry_shape exec reqs base sched e (List.mem_of_find?_eq_some he)
  rw [he1] at hshape
  rw [lookupIdx, he, Option.map_some']
  exact hshape.symm

/-- Under any completion order that is a permutation of the request
indices, the dispatch step's output is the request-ordered batch of
results: completion order is irrelevant. -/
theorem executeSched_perm (exec : ToolCall → String) (reqs : List ToolCall)
    (base : Nat) (sched : List Nat)
    (hperm : sched.Perm (List.range reqs.length)) :
    executeSched exec reqs base sched = (mkResults exec reqs base).map some := by
  apply List.ext_get?
  intro i
  by_cases hi : i < reqs.length
  · rw [executeSched, List.get?_map, List.get?_range hi, Option.map_some',
      List.get?_map, mkResults_get?]
    have hmem : i ∈ sched := hperm.mem_iff.mpr (List.mem_range.mpr hi)
    rw [lookupIdx_log exec reqs base sched i hmem hi]
    rw [resultAt]
    cases hg : reqs.get? i with
    | none =>
        have := List.get?_eq_none.mp hg
        omega
    | some tc => rfl
  · have hlen1 : (executeSched exec reqs base sched).length ≤ i := by
      rw [executeSched, List.length_map, List.length_range]
      omega
    have hlen2 : ((mkResults exec reqs base).map some).length ≤ i := by
      rw [List.length_map, mkResults_length]
      omega
    rw [List.get?_eq_none.mpr hlen1, List.get?_eq_none.mpr hlen2]

/-- C4: for every batch of `N` requests, the dispatch step returns
exactly `N` result messages, the `i`-th of which is the result of the
`i`-th request, whatever order the invocations complete in. -/
theorem dispatch_order_preserving (exec : ToolCall → String)
    (reqs : List ToolCall) (base : Nat) (sched : List Nat)
    (hperm : sched.Perm (List.range reqs.length)) :
    executeSched exec reqs base sched = (mkResults exec reqs base).map some ∧
    (executeSched exec reqs base sched).length = reqs.length ∧
    ∀ i, (executeSched exec reqs base sched).get? i
        = (resultAt exec reqs base i).map some := by
  have hkey := executeSched_perm exec reqs base sched hperm
  refine ⟨hkey, ?_, ?_⟩
  · rw [hkey, List.length_map, mkResults_length]
  · intro i
    rw [hkey, List.get?_map, mkResults_get?]

/-- Witness for C4: a two-request batch whose second invocation
completes first still yields both results in request order. -/
theorem dispatch_order_preserving_witness :
    executeSched (fun tc => tc.name) [⟨"web", "a"⟩, ⟨"calc", "b"⟩] 5 [1, 0]
        = (mkResults (fun tc => tc.name) [⟨"web", "a"⟩, ⟨"calc", "b"⟩] 5).map some ∧
    (executeSched (fun tc => tc.name) [⟨"web", "a"⟩, ⟨"calc", "b"⟩] 5 [1, 0]).length
        = ([⟨"web", "a"⟩, ⟨"calc", "b"⟩] : List ToolCall).length ∧
    ∀ i, (executeSched (fun tc => tc.name) [⟨"web", "a"⟩, ⟨"calc", "b"⟩] 5 [1, 0]).get? i
        = (resultAt (fun tc => tc.name) [⟨"web", "a"⟩, ⟨"calc", "b"⟩] 5 i).map some :=
  dispatch_order_preserving (fun tc => tc.name) [⟨"web", "a"⟩, ⟨"calc", "b"⟩] 5 [1, 0]
    (by decide)

/-- C7: the control loop is deterministic as a two-run property.  The
reasoner is a pure function of the history and each tool result a pure
function of its request, so the only variation between two runs from
the same state is the per-cycle completion order of tool batches; for
any two valid completion-order families the runs produce identical
history sequences. -/
theorem run_schedule_deterministic (reason : List Message → String × List ToolCall)
    (exec : ToolCall → String) (scheds1 scheds2 : Nat → Nat → List Nat)
    (fuel : Nat) (hist : List Message) (nid cycle : Nat)
    (h1 : ∀ c n, (scheds1 c n).Perm (List.range n))
    (h2 : ∀ c n, (scheds2 c n).Perm (List.range n)) :
    runSched reason exec scheds1 fuel hist nid cycle
      = runSched reason exec scheds2 fuel hist nid cycle := by
  induction fuel generalizing hist nid cycle with
  | zero => rfl
  | succ f ih =>
      cases htc : tools_condition
          (add_messages hist [⟨nid, .ai (reason hist).1 (reason hist).2⟩]) with
      | done => simp only [runSched, htc]
      | tools =>
          simp only [runSched, htc]
          rw [executeSched_perm exec (reason hist).2 (nid + 1) _
                (h1 cycle (reason hist).2.length),
              executeSched_perm exec (reason hist).2 (nid + 1) _
                (h2 cycle (reason hist).2.length)]
          exact ih _ _ _

/-- Witness for C7: an in-order and a reversed completion order produce
the same run from the seeded state. -/
theorem run_schedule_deterministic_witness :
    runSched (fun h => if h.length ≤ 1 then ("", [⟨"web", "a"⟩, ⟨"calc", "b"⟩]) else ("done", []))
        (fun tc => tc.name) (fun _ n => List.range n) 3 [⟨0, .human "hi"⟩] 1 0
      = runSched (fun h => if h.length ≤ 1 then ("", [⟨"web", "a"⟩, ⟨"calc", "b"⟩]) else ("done", []))
        (fun tc => tc.name) (fun _ n => (List.range n).reverse) 3 [⟨0, .human "hi"⟩] 1 0 :=
  run_schedule_deterministic
    (fun h => if h.length ≤ 1 then ("", [⟨"web", "a"⟩, ⟨"calc", "b"⟩]) else ("done", []))
    (fun tc => tc.name) (fun _ n => List.range n) (fun _ n => (List.range n).reverse)
    3 [⟨0, .human "hi"⟩] 1 0
    (fun _ n => List.Perm.refl _)
    (fun _ n => List.reverse_perm _)

end MCP

namespace MCP

/-! ## Error propagation out of `main` -/

/-- C5 counterexample: `main` awaits `build_graph`, whose unguarded
`await client.get_tools()` raises when a configured worker process
cannot be launched (here: the configured script path does not exist);
nothing on the path catches it, so the user-visible end of the run is a
raw uncaught exception — not a plain answer, a structured failure, or an
iteration-limit notice. -/
theorem raw_exception_counterexample :
    isGracefulOutput
      (mainRun
        (.exn "FileNotFoundError"
          "python: can't open file /home/toqeer-yasir/Documents/repos/ai-agents-with-langgraph/agentic_chatbot/mcp_calculator_server.py")
        (fun _ => .ok ("", [])) (fun _ => "") 25
        "how many songs are there in my music folder?") = false := rfl

/-- C5 amended: the program installs no exception handler on the
conversation path, so a worker-launch failure or a reasoning-step
failure reaches the user as a raw uncaught exception, propagated with
its kind and message; there is no structured-failure output. -/
theorem failures_propagate_raw (k m initial : String)
    (reason : List Message → PyResult (String × List ToolCall))
    (exec : ToolCall → String) (fuel : Nat)
    (hreason : reason [⟨0, .human initial⟩] = .exn k m) :
    mainRun (.exn k m) reason exec fuel initial = .uncaughtException k m ∧
    mainRun (.ok ()) reason exec (fuel + 1) initial = .uncaughtException k m := by
  refine ⟨rfl, ?_⟩
  simp [mainRun, runE, hreason]

/-- Witness for C5's amended claim: a model-unavailable error from the
first reasoning call reaches the user raw, as does a launch error. -/
theorem failures_propagate_raw_witness :
    mainRun (.exn "APIConnectionError" "Connection error.")
        (fun _ => .exn "APIConnectionError" "Connection error.") (fun _ => "") 25 "hi"
      = .uncaughtException "APIConnectionError" "Connection error." ∧
    mainRun (.ok ())
        (fun _ => .exn "APIConnectionError" "Connection error.") (fun _ => "") (25 + 1) "hi"
      = .uncaughtException "APIConnectionError" "Connection error." :=
  failures_propagate_raw "APIConnectionError" "Connection error." "hi"
    (fun _ => .exn "APIConnectionError" "Connection error.") (fun _ => "") 25 rfl

end MCP
